import Mathlib

/-!
Shallow embedding of `src/email_spider.py` (linkedin-lead-miner).

Strings are modelled as `List Char`; Python's implicit Unicode handling is
irrelevant here because every string the spider manipulates (URLs, domains,
page text scanned for ASCII-constrained email characters) is treated
character by character, and the character classes used by the source
(`[\w\.-]`-style sets, `str.lower`) are applied via Lean's ASCII `Char`
predicates, which agree with Python's on the ASCII range the source targets.
-/

/-- The allowed email local/domain characters of `extract_emails`
(`set("abc...XYZ0123456789_.-")` in the source). -/
def allowedChars (c : Char) : Bool :=
  c.isAlpha || c.isDigit || c == '_' || c == '.' || c == '-'

/-- Worker for `pyReplace`; the fuel is bounded below by the length of the
remaining string, so the `0` fallback is never reached from `pyReplace`. -/
def pyReplaceGo (pat : List Char) : Nat → List Char → List Char
  | _, [] => []
  | 0, s => s
  | fuel + 1, c :: rest =>
    if !pat.isEmpty && pat.isPrefixOf (c :: rest) then
      pyReplaceGo pat fuel ((c :: rest).drop pat.length)
    else
      c :: pyReplaceGo pat fuel rest

/-- Python `s.replace(pat, "")` for a non-empty `pat`: one left-to-right pass
removing every non-overlapping occurrence, resuming after each removed span. -/
def pyReplace (s pat : List Char) : List Char :=
  pyReplaceGo pat s.length s

def wwwDot : List Char := "www.".toList

/-- The search target built by `extract_emails`:
`"@" + domain.replace("www.", "")`. -/
def emailTarget (dom : List Char) : List Char :=
  '@' :: pyReplace dom wwwDot

/-- Helper for `findSub`: scan `l` (which is `text.drop i` for the absolute
index `i`) for the first position where `pat` occurs. -/
def findSubAux (pat : List Char) : List Char → Nat → Option Nat
  | [], i => if pat.isEmpty then some i else none
  | c :: rest, i =>
    if pat.isPrefixOf (c :: rest) then some i else findSubAux pat rest (i + 1)

/-- Python `text.find(pat, pos)`: the least index `p ≥ pos` at which `pat`
occurs in `text` (`none` for Python's `-1`). -/
def findSub (text pat : List Char) (pos : Nat) : Option Nat :=
  findSubAux pat (text.drop pos) pos

/-- The check `text[i] in allowed_chars` guarded by `i < len(text)`, exactly the
false-positive check `end_idx < len(text) and text[end_idx] in allowed_chars`
of the source. -/
def charAllowedAt (text : List Char) (i : Nat) : Bool :=
  match text[i]? with
  | some c => allowedChars c
  | none => false

/-- The backward walk of `extract_emails` from the position just before the
`'@'`: the longest suffix of `text.take p` consisting of allowed characters
(`start` ends at the first disallowed character or at `-1`, and the username
is `text[start + 1 : p]`). -/
def localPartBefore (text : List Char) (p : Nat) : List Char :=
  ((text.take p).reverse.takeWhile allowedChars).reverse

/-- The source's `if username: emails.add(username + target)`, with
Python-set semantics rendered as insert-if-absent. -/
def insertEmail (username target : List Char) (emails : List (List Char)) :
    List (List Char) :=
  if username = [] then emails
  else if (username ++ target) ∈ emails then emails
  else (username ++ target) :: emails

/-- The scan loop of `extract_emails`, with explicit fuel standing for the
number of loop iterations still permitted (`none` = fuel exhausted; the
termination theorem shows fuel `text.length + 1` always suffices). -/
def extractLoop (text target : List Char) :
    Nat → Nat → List (List Char) → Option (List (List Char))
  | 0, _, _ => none
  | fuel + 1, pos, emails =>
    match findSub text target pos with
    | none => some emails
    | some p =>
      if charAllowedAt text (p + target.length) then
        -- domain continues (e.g. "example.com" inside "example.com.au"): skip
        extractLoop text target fuel (p + target.length) emails
      else
        extractLoop text target fuel (p + target.length)
          (insertEmail (localPartBefore text p) target emails)

/-- The source's `extract_emails(text, domain)` (result as a duplicate-free
list standing for the Python `set`). -/
def extract_emails (text dom : List Char) : List (List Char) :=
  (extractLoop text (emailTarget dom) (text.length + 1) 0 []).getD []

/-- Split off the part of a URL after the first `"://"` occurrence, if any. -/
def afterSchemeSep : List Char → Option (List Char)
  | [] => none
  | c :: rest =>
    if (':' :: '/' :: '/' :: []).isPrefixOf (c :: rest) then some (rest.drop 2)
    else afterSchemeSep rest

/-- A character ending the netloc component of a URL. -/
def netlocEnd (c : Char) : Bool := c == '/' || c == '?' || c == '#'

/-- A character ending the path component of a URL. -/
def pathEnd (c : Char) : Bool := c == '?' || c == '#'

/-- The source's `domain(url)`, i.e. `urlparse(url).netloc`: the host part
after `"//"`, ended by `/`, `?` or `#`. Modelled from Python's `urllib.parse`
behaviour on the URL shapes the spider handles (absolute `http(s)` URLs and
protocol-relative `//host` URLs); a URL with no `//` has an empty netloc,
as in Python. -/
def domain (url : List Char) : List Char :=
  if ('/' :: '/' :: []).isPrefixOf url then
    (url.drop 2).takeWhile (fun c => !netlocEnd c)
  else
    match afterSchemeSep url with
    | some rest => rest.takeWhile (fun c => !netlocEnd c)
    | none => []

/-- The value `urlparse(url).path` as used by `prioritize_links`: what follows the
scheme and netloc, up to a query or fragment. Modelled from Python's
`urllib.parse` behaviour on the URL shapes the spider handles. -/
def urlPath (url : List Char) : List Char :=
  let rest :=
    if ('/' :: '/' :: []).isPrefixOf url then
      (url.drop 2).dropWhile (fun c => !netlocEnd c)
    else
      match afterSchemeSep url with
      | some r => r.dropWhile (fun c => !netlocEnd c)
      | none => url
  rest.takeWhile (fun c => !pathEnd c)

/-- The source's `remove_fragment(url)`: the URL with any `#fragment` removed, modelling
`urlunparse(urlparse(url)._replace(fragment=''))` for these URL shapes. -/
def remove_fragment (url : List Char) : List Char :=
  url.takeWhile (fun c => c != '#')

/-- Python regex `\w` on the ASCII range: letters, digits, underscore. -/
def isWordChar (c : Char) : Bool := c.isAlphanum || c == '_'

/-- Whether position `i` of `s` holds a word character (out of range: no). -/
def wordCharAt (s : List Char) (i : Nat) : Bool :=
  match s[i]? with
  | some c => isWordChar c
  | none => false

/-- A Python `re` word boundary `\b` between positions `i - 1` and `i` of `s`:
exactly one of the two neighbouring positions holds a word character
(out-of-range positions count as non-word). -/
def boundaryAt (s : List Char) (i : Nat) : Bool :=
  (if i == 0 then false else wordCharAt s (i - 1)) != wordCharAt s i

/-- The test `re.search` of `\b`-delimited escaped keyword against the path: at some position a
word boundary is followed by the literal `kw` (which `re.escape` makes a
literal) followed by a word boundary. -/
def wholeWordMatch (kw path : List Char) : Bool :=
  (List.range (path.length + 1)).any fun i =>
    boundaryAt path i && kw.isPrefixOf (path.drop i) && boundaryAt path (i + kw.length)

/-- Python's `kw in path` substring containment: `kw` occurs at the head or
somewhere in the tail. -/
def containsSub (kw : List Char) : List Char → Bool
  | [] => kw.isEmpty
  | c :: rest => kw.isPrefixOf (c :: rest) || containsSub kw rest

/-- Python `str.lower` (ASCII range, as exercised here). -/
def lowerStr (s : List Char) : List Char := s.map Char.toLower

/-- The inner `priority_score(link)` of `prioritize_links`; `none` models
`float('inf')`. -/
def priority_score (priority_keywords : List (List Char)) (url : List Char) : Option Nat :=
  let path := lowerStr (urlPath url)
  match priority_keywords.findIdx? (fun kw => wholeWordMatch (lowerStr kw) path) with
  | some index => some index
  | none =>
    match priority_keywords.findIdx? (fun kw => containsSub (lowerStr kw) path) with
    | some index => some (index + priority_keywords.length)
    | none => none

/-- Comparison of priority scores; `none` (infinity) is the greatest. -/
def scoreLE : Option Nat → Option Nat → Bool
  | _, none => true
  | none, some _ => false
  | some a, some b => a ≤ b

/-- A discovered link as handed over by the runtime's `LinkExtractor`. -/
structure Link where
  url : List Char
deriving DecidableEq

/-- The source's `prioritize_links(links, priority_keywords)`: Python's stable `sorted`
by `priority_score`. -/
def prioritize_links (links : List Link) (priority_keywords : List (List Char)) : List Link :=
  links.mergeSort fun a b =>
    scoreLE (priority_score priority_keywords a.url) (priority_score priority_keywords b.url)

/-- The source's `ensure_urls_valid(urls)`: prepend `https://` to every URL
not starting with `http://` or `https://`. -/
def ensure_urls_valid : List (List Char) → List (List Char)
  | [] => []
  | url :: rest =>
    (if "http://".toList.isPrefixOf url || "https://".toList.isPrefixOf url then url
     else "https://".toList ++ url) :: ensure_urls_valid rest

/-- The externally supplied spider configuration. -/
structure SpiderConfig where
  max_pages_per_domain : Nat
  priority_url_keywords : List (List Char)

/-- A `scrapy.Request` as issued by the spider: URL, the `origin_domain` meta
entry, the hop depth maintained by the runtime's depth middleware (0 for
seed requests, parent + 1 for derived ones), and the scheduling priority
hint. -/
structure CrawlRequest where
  url : List Char
  origin_domain : List Char
  hop_depth : Nat
  priority : Nat
deriving DecidableEq

/-- An emitted item `{email, origin_domain}`. -/
structure EmailResult where
  email : List Char
  origin_domain : List Char
deriving DecidableEq

/-- A fetched response as seen by `parse`: the final URL (possibly differing
from the request URL after a redirect), the body text, the request meta
carried over by the runtime (`origin_domain`, and `depth`, which the depth
middleware defaults to 0 for seed responses), and the links produced by the
configured `LinkExtractor` (restricted to `allow_domains=[current_domain]`
with fragments stripped — the extractor is the external runtime's). -/
structure Response where
  url : List Char
  text : List Char
  origin_domain : List Char
  depth : Nat
  extracted_links : List Link

/-- What one `parse` callback produces: the yielded items, the yielded
follow-up requests in yield order, and the updated per-domain counters. -/
structure ParseOutput where
  results : List EmailResult
  requests : List CrawlRequest
  counters : List Char → Nat

/-- The source's `start_requests`: one hop-0 request per (already normalized) start URL,
with `origin_domain` fixed from the seed URL; Scrapy's default request
priority is 0. -/
def start_requests (start_urls : List (List Char)) : List CrawlRequest :=
  start_urls.map fun url =>
    { url := url, origin_domain := domain url, hop_depth := 0, priority := 0 }

/-- The `parse` callback, line by line from the source; the hop depth of a
derived request is the runtime depth middleware's accounting
(child depth = parent depth + 1). -/
def parse (cfg : SpiderConfig) (pages_crawled_per_domain : List Char → Nat)
    (response : Response) : ParseOutput :=
  let current_domain := domain response.url
  let emails := extract_emails response.text current_domain
  let results := emails.map fun e =>
    { email := e, origin_domain := response.origin_domain : EmailResult }
  let cnt := pages_crawled_per_domain current_domain + 1
  let counters' := fun d => if d = current_domain then cnt else pages_crawled_per_domain d
  let requests :=
    if cnt > cfg.max_pages_per_domain then []
    else if response.depth == 0 then
      let prioritized_links := prioritize_links response.extracted_links cfg.priority_url_keywords
      let links_limit := cfg.max_pages_per_domain - cnt
      (prioritized_links.take links_limit).enum.map fun p =>
        { url := p.2.url
          origin_domain := response.origin_domain
          hop_depth := response.depth + 1
          priority := prioritized_links.length - p.1 }
    else []
  { results := results, requests := requests, counters := counters' }

/-- The requests a crawl run can create, each tagged with the normalized seed
URL whose request chain produced it: the seed requests of `start_requests`,
and the follow-up requests yielded by `parse` on any response the runtime may
deliver for an already-produced request (the runtime carries the request's
meta — origin domain and hop depth — onto the response; the response URL,
body and extracted links are arbitrary). -/
inductive Produces (cfg : SpiderConfig) (seeds : List (List Char)) :
    CrawlRequest → List Char → Prop
  | seed {url : List Char} (h : url ∈ ensure_urls_valid seeds) :
      Produces cfg seeds
        { url := url, origin_domain := domain url, hop_depth := 0, priority := 0 } url
  | step {req : CrawlRequest} {seedUrl : List Char}
      (hreq : Produces cfg seeds req seedUrl)
      (counters : List Char → Nat) (respUrl text : List Char) (links : List Link)
      {req' : CrawlRequest}
      (h : req' ∈ (parse cfg counters
        { url := respUrl, text := text, origin_domain := req.origin_domain,
          depth := req.hop_depth, extracted_links := links }).requests) :
      Produces cfg seeds req' seedUrl

/-- What `extract_emails` guarantees about each returned string `e`: it splits
as a non-empty local part of allowed characters followed by the search target,
and it occurs in `text` at a position where the character before it (if `i`
is not 0) and the character after it (`charAllowedAt` is `false` past the end
of `text`, covering "or the end of T") are outside the allowed set. -/
def goodEmail (text target e : List Char) : Prop :=
  ∃ loc i,
    e = loc ++ target ∧
    loc ≠ [] ∧
    (∀ c ∈ loc, allowedChars c = true) ∧
    i + e.length ≤ text.length ∧
    e.isPrefixOf (text.drop i) = true ∧
    (i = 0 ∨ charAllowedAt text (i - 1) = false) ∧
    charAllowedAt text (i + e.length) = false

/-- The spec's reading of the target construction for claims C1 and C2: strip
only a LEADING `"www."` from the domain. Compared against the source's
`emailTarget`, which removes every `"www."` occurrence via `replace`. -/
def strip_leading_www (dom : List Char) : List Char :=
  if wwwDot.isPrefixOf dom then dom.drop wwwDot.length else dom

/-- Whether position `i` of `s` holds an alphanumeric character
(out of range: no). -/
def alnumAt (s : List Char) (i : Nat) : Bool :=
  match s[i]? with
  | some c => c.isAlphanum
  | none => false

/-- The whole-word criterion as claim C6 words it: the keyword occurs bounded
on both sides by a non-ALPHANUMERIC character (so underscore would count as a
boundary) or by the start/end of the path. Compared against the source's
regex-`\b` check `wholeWordMatch`, whose boundaries are non-WORD characters
(underscore is a word character). -/
def specWholeWord (kw path : List Char) : Bool :=
  (List.range (path.length + 1)).any fun i =>
    kw.isPrefixOf (path.drop i) &&
    (i == 0 || !alnumAt path (i - 1)) &&
    !alnumAt path (i + kw.length)

/-! ### Helper lemmas: the literal-substring search -/

theorem findSubAux_some {pat : List Char} {l : List Char} :
    ∀ {i p : Nat}, findSubAux pat l i = some p →
      i ≤ p ∧ pat.isPrefixOf (l.drop (p - i)) = true := by
  induction l with
  | nil =>
    intro i p h
    simp only [findSubAux] at h
    split at h
    · cases h
      refine ⟨Nat.le_refl _, ?_⟩
      have : pat = [] := by simp_all [List.isEmpty_iff]
      simp [this]
    · cases h
  | cons c rest ih =>
    intro i p h
    simp only [findSubAux] at h
    split at h <;> rename_i hc
    · cases h
      simpa [Nat.sub_self] using hc
    · obtain ⟨h1, h2⟩ := ih h
      refine ⟨by omega, ?_⟩
      have he : p - i = (p - (i + 1)) + 1 := by omega
      rw [he, List.drop_succ_cons]
      exact h2

theorem findSub_some {text pat : List Char} {pos p : Nat} (h : findSub text pat pos = some p) :
    pos ≤ p ∧ pat.isPrefixOf (text.drop p) = true := by
  obtain ⟨h1, h2⟩ := findSubAux_some h
  refine ⟨h1, ?_⟩
  rw [List.drop_drop] at h2
  rwa [Nat.add_sub_cancel' h1] at h2

theorem findSub_fits {text pat : List Char} {pos p : Nat} (hpat : pat ≠ [])
    (h : findSub text pat pos = some p) : p + pat.length ≤ text.length := by
  have h2 := (findSub_some h).2
  rw [ List.isPrefixOf_iff_prefix] at h2
  have hlen := h2.length_le
  rw [List.length_drop] at hlen
  have hpos : 0 < pat.length := List.length_pos.mpr hpat
  omega

theorem findSub_decomp {text pat : List Char} {pos p : Nat}
    (h : findSub text pat pos = some p) :
    text.drop p = pat ++ text.drop (p + pat.length) := by
  have h2 := (findSub_some h).2
  rw [ List.isPrefixOf_iff_prefix] at h2
  obtain ⟨t, ht⟩ := h2
  have hteq : t = text.drop (p + pat.length) := by
    have hdrop := congrArg (List.drop pat.length) ht
    rwa [List.drop_left, List.drop_drop] at hdrop
  rw [← ht, hteq]

/-! ### Helper lemmas: the backward walk -/

theorem localPartBefore_allowed {text : List Char} {p : Nat} :
    ∀ c ∈ localPartBefore text p, allowedChars c = true := by
  intro c hc
  unfold localPartBefore at hc
  rw [List.mem_reverse] at hc
  have hall := List.all_takeWhile (l := (text.take p).reverse) (p := allowedChars)
  rw [List.all_eq_true] at hall
  exact hall c hc

theorem localPartBefore_decomp (text : List Char) (p : Nat) :
    ∃ pre, text.take p = pre ++ localPartBefore text p ∧
      (pre = [] ∨ ∃ c, pre.getLast? = some c ∧ allowedChars c = false) := by
  refine ⟨((text.take p).reverse.dropWhile allowedChars).reverse, ?_, ?_⟩
  · rw [localPartBefore, ← List.reverse_append, List.takeWhile_append_dropWhile,
      List.reverse_reverse]
  · have hhead := List.head?_dropWhile_not allowedChars (text.take p).reverse
    cases hd : ((text.take p).reverse.dropWhile allowedChars).head? with
    | none =>
      left
      have : (text.take p).reverse.dropWhile allowedChars = [] := by
        cases h' : (text.take p).reverse.dropWhile allowedChars with
        | nil => rfl
        | cons a as => rw [h'] at hd; cases hd
      simp [this]
    | some c =>
      right
      refine ⟨c, ?_, ?_⟩
      · rw [List.getLast?_reverse]
        exact hd
      · rw [hd] at hhead
        exact hhead

/-! ### The soundness invariant of the scan loop -/

theorem goodEmail_add {text target : List Char} {pos p : Nat}
    (htarget : target ≠ [])
    (hfind : findSub text target pos = some p)
    (hnot : charAllowedAt text (p + target.length) = false)
    (hne : localPartBefore text p ≠ []) :
    goodEmail text target (localPartBefore text p ++ target) := by
  obtain ⟨pre, hpre, hlast⟩ := localPartBefore_decomp text p
  have hfits := findSub_fits htarget hfind
  have htlen : 0 < target.length := List.length_pos.mpr htarget
  have hple : p ≤ text.length := by omega
  have htake : (text.take p).length = p := by
    rw [List.length_take]; omega
  have hlen : pre.length + (localPartBefore text p).length = p := by
    have hc := congrArg List.length hpre
    rw [htake, List.length_append] at hc
    omega
  have hsplit : text = pre ++ (localPartBefore text p ++ text.drop p) := by
    conv_lhs => rw [← List.take_append_drop p text]
    rw [hpre, List.append_assoc]
  refine ⟨localPartBefore text p, pre.length, rfl, hne, localPartBefore_allowed, ?_, ?_, ?_, ?_⟩
  · simp only [List.length_append]
    omega
  · rw [ List.isPrefixOf_iff_prefix]
    refine ⟨text.drop (p + target.length), ?_⟩
    rw [List.append_assoc, ← findSub_decomp hfind]
    conv_rhs => rw [hsplit]
    rw [List.drop_left]
  · rcases hlast with h0 | ⟨c, hgl, hcf⟩
    · left; simp [h0]
    · right
      have hpre_ne : pre ≠ [] := by
        intro h0; rw [h0] at hgl; cases hgl
      have hpos : 0 < pre.length := List.length_pos.mpr hpre_ne
      have hidx : text[pre.length - 1]? = some c := by
        conv_lhs => rw [hsplit]
        rw [List.getElem?_append_left (by omega)]
        rw [← List.getLast?_eq_getElem?]
        exact hgl
      simp [charAllowedAt, hidx, hcf]
  · have heq : pre.length + (localPartBefore text p ++ target).length = p + target.length := by
      rw [List.length_append]
      omega
    rw [heq]
    exact hnot

theorem mem_insertEmail {username target e : List Char} {emails : List (List Char)}
    (h : e ∈ insertEmail username target emails) :
    e ∈ emails ∨ (e = username ++ target ∧ username ≠ []) := by
  unfold insertEmail at h
  by_cases h1 : username = []
  · rw [if_pos h1] at h
    exact Or.inl h
  · rw [if_neg h1] at h
    by_cases h2 : (username ++ target) ∈ emails
    · rw [if_pos h2] at h
      exact Or.inl h
    · rw [if_neg h2] at h
      cases h with
      | head => exact Or.inr ⟨rfl, h1⟩
      | tail _ h3 => exact Or.inl h3

theorem extractLoop_good {text target : List Char} (htarget : target ≠ []) :
    ∀ (fuel pos : Nat) (emails res : List (List Char)),
      (∀ e ∈ emails, goodEmail text target e) →
      extractLoop text target fuel pos emails = some res →
      ∀ e ∈ res, goodEmail text target e := by
  intro fuel
  induction fuel with
  | zero => intro pos emails res _ h; cases h
  | succ fuel ih =>
    intro pos emails res hem h
    rw [extractLoop] at h
    cases hfind : findSub text target pos with
    | none =>
      simp only [hfind, Option.some.injEq] at h
      exact h ▸ hem
    | some p =>
      simp only [hfind] at h
      by_cases hca : charAllowedAt text (p + target.length) = true
      · rw [if_pos hca] at h
        exact ih _ _ _ hem h
      · rw [if_neg hca] at h
        refine ih _ _ _ ?_ h
        intro e he
        rcases mem_insertEmail he with he' | ⟨rfl, hne⟩
        · exact hem e he'
        · exact goodEmail_add htarget hfind (Bool.eq_false_iff.mpr hca) hne

theorem extractLoop_total {text target : List Char} (htarget : target ≠ []) :
    ∀ (fuel pos : Nat) (emails : List (List Char)),
      pos ≤ text.length → text.length + 1 - pos ≤ fuel →
      (extractLoop text target fuel pos emails).isSome = true := by
  intro fuel
  induction fuel with
  | zero =>
    intro pos emails h1 h2
    exfalso
    omega
  | succ fuel ih =>
    intro pos emails h1 h2
    rw [extractLoop]
    cases hfind : findSub text target pos with
    | none => simp [hfind]
    | some p =>
      simp only [hfind]
      have hfits := findSub_fits htarget hfind
      have hge := (findSub_some hfind).1
      have htlen : 0 < target.length := List.length_pos.mpr htarget
      by_cases hca : charAllowedAt text (p + target.length) = true
      · rw [if_pos hca]
        exact ih _ _ (by omega) (by omega)
      · rw [if_neg hca]
        exact ih _ _ (by omega) (by omega)

theorem emailTarget_ne_nil (dom : List Char) : emailTarget dom ≠ [] := by
  simp [emailTarget]

theorem extract_emails_good {text dom e : List Char} (h : e ∈ extract_emails text dom) :
    goodEmail text (emailTarget dom) e := by
  unfold extract_emails at h
  cases hloop : extractLoop text (emailTarget dom) (text.length + 1) 0 [] with
  | none =>
    rw [hloop] at h
    cases h
  | some res =>
    rw [hloop] at h
    exact extractLoop_good (emailTarget_ne_nil dom) _ _ _ _
      (by intro e' he'; cases he') hloop e h

/-! ### Helper lemmas: `pyReplace` -/

theorem wwwDot_eq : wwwDot = ['w', 'w', 'w', '.'] := rfl

theorem pyReplaceGo_congr {pat : List Char} :
    ∀ {fuel₁ : Nat} {s : List Char} {fuel₂ : Nat}, s.length ≤ fuel₁ → s.length ≤ fuel₂ →
      pyReplaceGo pat fuel₁ s = pyReplaceGo pat fuel₂ s := by
  intro fuel₁
  induction fuel₁ with
  | zero =>
    intro s fuel₂ h1 _
    have hs : s = [] := List.length_eq_zero.mp (Nat.le_zero.mp h1)
    subst hs
    cases fuel₂ <;> rfl
  | succ f ih =>
    intro s fuel₂ h1 h2
    cases s with
    | nil => cases fuel₂ <;> rfl
    | cons c rest =>
      cases fuel₂ with
      | zero => simp at h2
      | succ f₂ =>
        rw [pyReplaceGo, pyReplaceGo]
        by_cases hg : (!pat.isEmpty && pat.isPrefixOf (c :: rest)) = true
        · rw [if_pos hg, if_pos hg]
          rw [Bool.and_eq_true] at hg
          have hpat : 0 < pat.length := by
            cases hp : pat with
            | nil => rw [hp] at hg; simp at hg
            | cons x xs => simp
          rw [List.length_cons] at h1 h2
          apply ih
          · rw [List.length_drop, List.length_cons]
            omega
          · rw [List.length_drop, List.length_cons]
            omega
        · rw [if_neg hg, if_neg hg]
          rw [List.length_cons] at h1 h2
          exact congrArg (List.cons c) (ih (by omega) (by omega))

theorem pyReplaceGo_of_not_contains {pat : List Char} :
    ∀ {s : List Char} {fuel : Nat}, containsSub pat s = false →
      pyReplaceGo pat fuel s = s := by
  intro s
  induction s with
  | nil => intro fuel _; cases fuel <;> rfl
  | cons c rest ih =>
    intro fuel h
    rw [containsSub, Bool.or_eq_false_iff] at h
    cases fuel with
    | zero => rfl
    | succ f =>
      rw [pyReplaceGo, if_neg (by simp [h.1]), ih h.2]

theorem pyReplace_of_not_contains {pat s : List Char} (h : containsSub pat s = false) :
    pyReplace s pat = s :=
  pyReplaceGo_of_not_contains h

theorem pyReplace_leading {dom : List Char} (h : containsSub wwwDot dom = false) :
    pyReplace (wwwDot ++ dom) wwwDot = dom := by
  have hcons : wwwDot ++ dom = 'w' :: (['w', 'w', '.'] ++ dom) := by
    rw [wwwDot_eq]
    rfl
  have hguard : (!wwwDot.isEmpty && wwwDot.isPrefixOf ('w' :: (['w', 'w', '.'] ++ dom))) = true := by
    rw [Bool.and_eq_true]
    refine ⟨rfl, ?_⟩
    rw [← hcons, List.isPrefixOf_iff_prefix]
    exact List.prefix_append _ _
  have hlen : (wwwDot ++ dom).length = (['w', 'w', '.'] ++ dom).length + 1 := by
    simp [wwwDot_eq]
  unfold pyReplace
  rw [hlen, hcons, pyReplaceGo, if_pos hguard]
  have hdrop : (('w' :: (['w', 'w', '.'] ++ dom)).drop wwwDot.length) = dom := by
    rw [wwwDot_eq]
    rfl
  rw [hdrop]
  have hle : dom.length ≤ (['w', 'w', '.'] ++ dom).length := by
    simp only [List.length_append]
    omega
  rw [pyReplaceGo_congr hle (Nat.le_refl dom.length)]
  exact pyReplaceGo_of_not_contains h

theorem extract_emails_congr {d₁ d₂ : List Char} (h : emailTarget d₁ = emailTarget d₂)
    (text : List Char) : extract_emails text d₁ = extract_emails text d₂ := by
  unfold extract_emails
  rw [h]

/-! ### Claim C1 -/

/-- C1 (amended): every string returned by `extract_emails(T, D)` ends
exactly with `"@" + D'`, where `D'` is `D` with *every* occurrence of
`"www."` removed (`domain.replace('www.', '')` in the source — the original
claim's leading-only strip is refuted by the counterexample); its local part
is non-empty and drawn from the allowed character set; re-embedded at its
original position in `T` it is bounded on both sides by characters outside
the allowed set or by the ends of `T`; and
`extract_emails("contact: x@example.com.au", "example.com")` is empty. -/
theorem extract_emails_sound :
    (∀ text dom e : List Char, e ∈ extract_emails text dom →
      goodEmail text (emailTarget dom) e) ∧
    extract_emails "contact: x@example.com.au".toList "example.com".toList = [] :=
  ⟨fun _ _ _ h => extract_emails_good h, by decide⟩

/-- Witness for C1: on `T = "hi a@x.com"`, `D = "x.com"`, the returned string
`"a@x.com"` satisfies every clause of `goodEmail`. -/
theorem extract_emails_sound_witness :
    goodEmail "hi a@x.com".toList (emailTarget "x.com".toList) "a@x.com".toList :=
  extract_emails_sound.1 _ _ _ (by decide)

/-- C1 counterexample: for `D = "x.www.com"` (whose `"www."` is not a
leading prefix, so `D`-with-leading-`www.`-stripped is `D` itself), the
returned email `"a@x.com"` does not end with `"@x.www.com"`: the source's
`replace` removes the interior `"www."` as well. -/
theorem extract_emails_c1_counterexample :
    "a@x.com".toList ∈ extract_emails "a@x.com".toList "x.www.com".toList ∧
    strip_leading_www "x.www.com".toList = "x.www.com".toList ∧
    ('@' :: strip_leading_www "x.www.com".toList).isSuffixOf "a@x.com".toList = false := by
  decide

/-! ### Claim C2 -/

/-- C2 counterexample: for `D = "a.www.b"` the built search target is
`"@a.b"`, not `"@" + D`-with-leading-`www.`-stripped `= "@a.www.b"`: the
interior `"www."` is removed too, observably so (`"z@a.b"` is extracted). -/
theorem emailTarget_c2_counterexample :
    emailTarget "a.www.b".toList ≠ '@' :: strip_leading_www "a.www.b".toList ∧
    emailTarget "a.www.b".toList = "@a.b".toList ∧
    "z@a.b".toList ∈ extract_emails "z@a.b".toList "a.www.b".toList := by
  decide

/-- C2 (amended): `extract_emails` builds its search target as
`"@" + D'` where `D'` is `D` with *every* occurrence of `"www."` removed in
one left-to-right pass (Python `str.replace`), not only a leading one: a
domain free of `"www."` is kept unchanged, a leading `"www."` is stripped,
and consequently the domains `"www.example.com"` and `"example.com"` produce
identical extraction results (both match addresses ending in
`"@example.com"`). -/
theorem emailTarget_spec :
    (∀ dom : List Char, emailTarget dom = '@' :: pyReplace dom wwwDot) ∧
    (∀ dom : List Char, containsSub wwwDot dom = false →
      emailTarget dom = '@' :: dom) ∧
    (∀ dom : List Char, containsSub wwwDot dom = false →
      emailTarget (wwwDot ++ dom) = '@' :: dom) ∧
    (∀ text : List Char,
      extract_emails text "www.example.com".toList
        = extract_emails text "example.com".toList) := by
  refine ⟨fun dom => rfl, ?_, ?_, ?_⟩
  · intro dom h
    unfold emailTarget
    rw [pyReplace_of_not_contains h]
  · intro dom h
    unfold emailTarget
    rw [pyReplace_leading h]
  · intro text
    exact extract_emails_congr (by decide) text

/-- Witness for C2: stripping the leading `"www."` of `"www.example.com"`. -/
theorem emailTarget_spec_witness :
    emailTarget ("www.".toList ++ "example.com".toList) = '@' :: "example.com".toList :=
  emailTarget_spec.2.2.1 "example.com".toList (by decide)

/-! ### Claim C10 -/

/-- C10: the scan loop of `extract_emails` terminates on every input:
fuel `len(text) + 1` — at most `len(text)` productive iterations plus the
final failing search — always suffices, because the target's length is at
least 1 (the `"@"`), and a successful search from position `pos` finds a
match at `p ≥ pos` fitting inside `text`, after which the scan resumes at
`p + len(target) ≥ pos + 1`. -/
theorem extract_emails_terminates (text dom : List Char) :
    (extractLoop text (emailTarget dom) (text.length + 1) 0 []).isSome = true ∧
    1 ≤ (emailTarget dom).length ∧
    ∀ pos p : Nat, findSub text (emailTarget dom) pos = some p →
      pos + 1 ≤ p + (emailTarget dom).length ∧
      p + (emailTarget dom).length ≤ text.length := by
  refine ⟨extractLoop_total (emailTarget_ne_nil dom) _ _ _ (Nat.zero_le _) (by omega),
    by simp [emailTarget], ?_⟩
  intro pos p hf
  have h1 := (findSub_some hf).1
  have h2 := findSub_fits (emailTarget_ne_nil dom) hf
  have h3 : 0 < (emailTarget dom).length := by simp [emailTarget]
  exact ⟨by omega, h2⟩

/-- Witness for C10: a concrete successful search step on `"b@c"`. -/
theorem extract_emails_terminates_witness :
    0 + 1 ≤ 1 + (emailTarget "c".toList).length ∧
    1 + (emailTarget "c".toList).length ≤ "b@c".toList.length :=
  (extract_emails_terminates "b@c".toList "c".toList).2.2 0 1 (by decide)

/-! ### Claim C9 -/

/-- C9: seed normalization is per-URL and total: within any seed list, a
URL with no recognized scheme (`http://` / `https://`) gets `https://`
prepended and any other URL passes through unchanged; being a total function
of its input, it rejects nothing and raises nothing. -/
theorem ensure_urls_valid_spec (pre post : List (List Char)) (url : List Char) :
    ensure_urls_valid (pre ++ url :: post)
      = ensure_urls_valid pre ++
        (if "http://".toList.isPrefixOf url || "https://".toList.isPrefixOf url then url
         else "https://".toList ++ url) :: ensure_urls_valid post := by
  induction pre with
  | nil => rfl
  | cons u us ih =>
    rw [List.cons_append]
    rw [ensure_urls_valid, ensure_urls_valid]
    rw [ih, List.cons_append]

/-! ### Shape lemmas for the `parse` callback -/

theorem parse_results_origin {cfg : SpiderConfig} {counters : List Char → Nat}
    {resp : Response} {r : EmailResult} (h : r ∈ (parse cfg counters resp).results) :
    r.origin_domain = resp.origin_domain := by
  simp only [parse] at h
  rw [List.mem_map] at h
  obtain ⟨e, he, rfl⟩ := h
  rfl

theorem parse_requests_shape {cfg : SpiderConfig} {counters : List Char → Nat}
    {resp : Response} {req' : CrawlRequest}
    (h : req' ∈ (parse cfg counters resp).requests) :
    req'.origin_domain = resp.origin_domain ∧ req'.hop_depth = resp.depth + 1 ∧
      resp.depth = 0 := by
  simp only [parse] at h
  split at h
  · cases h
  · split at h
    · rename_i hdepth
      rw [List.mem_map] at h
      obtain ⟨p, hp, rfl⟩ := h
      exact ⟨rfl, rfl, by simpa using hdepth⟩
    · cases h

/-! ### Claim C3 -/

/-- C3: after `parse` increments the per-domain counter for the current
domain: exceeding `max_pages_per_domain` yields no follow-up requests; a
non-zero hop depth yields no follow-up requests; otherwise the emitted
requests are exactly the prefix of the ranked links of length
`max_pages_per_domain - counter` (so at most that many), and the request at
0-based rank position `i` carries priority `len(ranked links) - i`. -/
theorem parse_expansion (cfg : SpiderConfig) (counters : List Char → Nat)
    (resp : Response) :
    (parse cfg counters resp).counters (domain resp.url)
        = counters (domain resp.url) + 1 ∧
    (cfg.max_pages_per_domain < counters (domain resp.url) + 1 →
      (parse cfg counters resp).requests = []) ∧
    (resp.depth ≠ 0 → (parse cfg counters resp).requests = []) ∧
    (counters (domain resp.url) + 1 ≤ cfg.max_pages_per_domain → resp.depth = 0 →
      (parse cfg counters resp).requests.map CrawlRequest.url
          = ((prioritize_links resp.extracted_links cfg.priority_url_keywords).take
              (cfg.max_pages_per_domain - (counters (domain resp.url) + 1))).map Link.url ∧
      (parse cfg counters resp).requests.length
          ≤ cfg.max_pages_per_domain - (counters (domain resp.url) + 1) ∧
      ∀ i, ∀ hi : i < (parse cfg counters resp).requests.length,
        ((parse cfg counters resp).requests.get ⟨i, hi⟩).priority
          = (prioritize_links resp.extracted_links cfg.priority_url_keywords).length - i) := by
  refine ⟨?_, ?_, ?_, ?_⟩
  · simp [parse]
  · intro h
    simp only [parse]
    rw [if_pos h]
  · intro h
    simp only [parse]
    split
    · rfl
    · rw [if_neg (by simpa using h)]
  · intro h1 h2
    have hreq : (parse cfg counters resp).requests
        = ((prioritize_links resp.extracted_links cfg.priority_url_keywords).take
            (cfg.max_pages_per_domain - (counters (domain resp.url) + 1))).enum.map
            (fun p => CrawlRequest.mk p.2.url resp.origin_domain (resp.depth + 1)
              ((prioritize_links resp.extracted_links cfg.priority_url_keywords).length
                - p.1)) := by
      simp only [parse]
      rw [if_neg (by omega), if_pos (by simpa using h2)]
    rw [hreq]
    refine ⟨?_, ?_, ?_⟩
    · have hcomp : (CrawlRequest.url ∘ fun p : Nat × Link =>
          CrawlRequest.mk p.2.url resp.origin_domain (resp.depth + 1)
            ((prioritize_links resp.extracted_links cfg.priority_url_keywords).length
              - p.1))
          = (Link.url ∘ Prod.snd) := rfl
      rw [List.map_map, hcomp, ← List.map_map, List.enum_eq_enumFrom,
        List.enumFrom_map_snd]
    · simp only [List.length_map, List.enum_eq_enumFrom, List.enumFrom_length,
        List.length_take]
      omega
    · intro i hi
      simp only [List.get_eq_getElem, List.getElem_map, List.enum_eq_enumFrom,
        List.getElem_enumFrom]
      rw [Nat.zero_add]

/-- Witness for C3: a seed response under budget expands, with at most
`50 - 1` follow-ups. -/
theorem parse_expansion_witness :
    (parse ⟨50, []⟩ (fun _ => 0)
        ⟨"https://x.com".toList, [], "x.com".toList, 0,
          [⟨"https://x.com/a".toList⟩]⟩).requests.length ≤ 49 :=
  ((parse_expansion ⟨50, []⟩ (fun _ => 0)
      ⟨"https://x.com".toList, [], "x.com".toList, 0,
        [⟨"https://x.com/a".toList⟩]⟩).2.2.2 (by decide) rfl).2.1

/-! ### Claim C4 -/

/-- C4: every request a crawl run can create carries
`origin_domain = domain(seed URL)` for the normalized seed URL whose request
chain produced it — set once at seed-request creation and copied unchanged
into every derived request — and hence every `EmailResult` emitted by `parse`
on any response to such a request carries that same origin domain, never the
fetched page's own domain. -/
theorem origin_domain_provenance (cfg : SpiderConfig) (seeds : List (List Char))
    (req : CrawlRequest) (seedUrl : List Char) (h : Produces cfg seeds req seedUrl) :
    req.origin_domain = domain seedUrl ∧
    ∀ (counters : List Char → Nat) (respUrl text : List Char) (links : List Link),
      ∀ r ∈ (parse cfg counters ⟨respUrl, text, req.origin_domain, req.hop_depth, links⟩).results,
        r.origin_domain = domain seedUrl := by
  have hmain : req.origin_domain = domain seedUrl := by
    induction h with
    | seed hurl => rfl
    | step hreq counters respUrl text links hmem ih =>
      rw [(parse_requests_shape hmem).1]
      exact ih
  refine ⟨hmain, ?_⟩
  intro counters respUrl text links r hr
  rw [parse_results_origin hr]
  exact hmain

-- Witness for C4: the hop-1 request derived from the seed "x.com" via a
-- concrete response still carries the seed's domain.
unseal List.merge List.mergeSort in
theorem origin_domain_provenance_witness :
    (CrawlRequest.mk "https://x.com/a".toList "x.com".toList 1 1).origin_domain
      = domain "https://x.com".toList :=
  (origin_domain_provenance ⟨50, []⟩ ["x.com".toList]
    (CrawlRequest.mk "https://x.com/a".toList "x.com".toList 1 1)
    "https://x.com".toList
    (Produces.step (Produces.seed (by decide)) (fun _ => 0) "https://x.com".toList
      [] [⟨"https://x.com/a".toList⟩] (by decide))).1

/-! ### Claim C5 -/

/-- C5: no reachable request of a crawl run has hop depth greater than 1:
seeds start at depth 0, only responses at depth 0 expand, and the derived
requests sit at depth 1 and are never expanded further. -/
theorem hop_depth_le_one (cfg : SpiderConfig) (seeds : List (List Char))
    (req : CrawlRequest) (seedUrl : List Char) (h : Produces cfg seeds req seedUrl) :
    req.hop_depth ≤ 1 := by
  induction h with
  | seed hurl => exact Nat.zero_le 1
  | step hreq counters respUrl text links hmem ih =>
    obtain ⟨-, hdepth, hzero⟩ := parse_requests_shape hmem
    omega

-- Witness for C5: a concrete hop-1 request derived from the seed "y.com".
unseal List.merge List.mergeSort in
theorem hop_depth_le_one_witness :
    (CrawlRequest.mk "https://y.com/b".toList "y.com".toList 1 1).hop_depth ≤ 1 :=
  hop_depth_le_one ⟨50, []⟩ ["y.com".toList]
    (CrawlRequest.mk "https://y.com/b".toList "y.com".toList 1 1)
    "https://y.com".toList
    (Produces.step (Produces.seed (by decide)) (fun _ => 0) "https://y.com".toList
      [] [⟨"https://y.com/b".toList⟩] (by decide))

/-! ### Helper lemmas: word boundaries -/

theorem occurrence_fits {kw path : List Char} {i : Nat} (hne : kw ≠ [])
    (h : kw.isPrefixOf (path.drop i) = true) : i + kw.length ≤ path.length := by
  rw [ List.isPrefixOf_iff_prefix] at h
  have hlen := h.length_le
  rw [List.length_drop] at hlen
  have hk : 0 < kw.length := List.length_pos.mpr hne
  omega

theorem getElem?_of_occurrence {kw path : List Char} {i j : Nat}
    (h : kw.isPrefixOf (path.drop i) = true) (hj : j < kw.length) :
    path[i + j]? = kw[j]? := by
  rw [ List.isPrefixOf_iff_prefix] at h
  obtain ⟨t, ht⟩ := h
  rw [← List.getElem?_drop, ← ht, List.getElem?_append_left hj]

theorem wordCharAt_of_occurrence {kw path : List Char} {i j : Nat}
    (hw : ∀ c ∈ kw, isWordChar c = true)
    (h : kw.isPrefixOf (path.drop i) = true) (hj : j < kw.length) :
    wordCharAt path (i + j) = true := by
  have hg := getElem?_of_occurrence h hj
  rw [List.getElem?_eq_getElem hj] at hg
  simp only [wordCharAt, hg]
  exact hw _ (List.getElem_mem hj)

theorem boundaryAt_right_word {s : List Char} {i : Nat} (hw : wordCharAt s i = true) :
    boundaryAt s i = true ↔ (i = 0 ∨ wordCharAt s (i - 1) = false) := by
  unfold boundaryAt
  rw [hw]
  by_cases h0 : i = 0
  · simp [h0]
  · simp [h0]

theorem boundaryAt_left_word {s : List Char} {i : Nat} (hi : i ≠ 0)
    (hw : wordCharAt s (i - 1) = true) :
    boundaryAt s i = true ↔ wordCharAt s i = false := by
  unfold boundaryAt
  simp [hi, hw]

/-! ### Claim C6 -/

/-- C6 (amended): for a non-empty keyword made of word characters
(letters, digits, underscore — which all realistic priority keywords are),
the `\b`-based whole-word check of `prioritize_links` succeeds exactly when
the keyword occurs in the path bounded on both sides by the start/end of the
path or by a character that is neither alphanumeric nor underscore
(`wordCharAt path j = false` covers both "past the end" and "non-word
character"). The original claim counted underscore among the boundary
characters; Python's `\b` treats it as a word character — see the
counterexample. In `priority_score` this check is applied to the lower-cased
keyword and lower-cased URL path. -/
theorem wholeWordMatch_iff {kw path : List Char} (hne : kw ≠ [])
    (hw : ∀ c ∈ kw, isWordChar c = true) :
    wholeWordMatch kw path = true ↔
      ∃ i, kw.isPrefixOf (path.drop i) = true ∧
        (i = 0 ∨ wordCharAt path (i - 1) = false) ∧
        wordCharAt path (i + kw.length) = false := by
  have hk : 0 < kw.length := List.length_pos.mpr hne
  unfold wholeWordMatch
  rw [List.any_eq_true]
  constructor
  · rintro ⟨i, hmem, hb⟩
    rw [Bool.and_eq_true, Bool.and_eq_true] at hb
    obtain ⟨⟨hb1, hpre⟩, hb2⟩ := hb
    refine ⟨i, hpre, ?_, ?_⟩
    · have hwi : wordCharAt path i = true := by
        have hj := wordCharAt_of_occurrence hw hpre hk
        simpa using hj
      exact (boundaryAt_right_word hwi).mp hb1
    · have hwl : wordCharAt path (i + kw.length - 1) = true := by
        have hj := wordCharAt_of_occurrence hw hpre (j := kw.length - 1) (by omega)
        have heq : i + (kw.length - 1) = i + kw.length - 1 := by omega
        rwa [heq] at hj
      exact (boundaryAt_left_word (by omega) hwl).mp hb2
  · rintro ⟨i, hpre, hleft, hright⟩
    have hfits := occurrence_fits hne hpre
    refine ⟨i, ?_, ?_⟩
    · rw [List.mem_range]
      omega
    · rw [Bool.and_eq_true, Bool.and_eq_true]
      have hwi : wordCharAt path i = true := by
        have hj := wordCharAt_of_occurrence hw hpre hk
        simpa using hj
      have hwl : wordCharAt path (i + kw.length - 1) = true := by
        have hj := wordCharAt_of_occurrence hw hpre (j := kw.length - 1) (by omega)
        have heq : i + (kw.length - 1) = i + kw.length - 1 := by omega
        rwa [heq] at hj
      exact ⟨⟨(boundaryAt_right_word hwi).mpr hleft, hpre⟩,
        (boundaryAt_left_word (by omega) hwl).mpr hright⟩

-- Witness for C6: keyword "about" occurs whole-word in "/about/x" at
-- position 1, bounded by slashes.
theorem wholeWordMatch_iff_witness :
    wholeWordMatch "about".toList "/about/x".toList = true :=
  (wholeWordMatch_iff (by decide) (by decide)).mpr
    ⟨1, by decide, by decide, by decide⟩

/-- C6 counterexample: with keyword `"about"` and path `"/x_about"` the
claim's criterion holds — the occurrence is preceded by the non-alphanumeric
`'_'` and followed by the end of the path — yet the source's regex check
fails, because `\b` counts underscore as a word character; `priority_score`
accordingly scores the path as a partial match (`0 + 1`), not as a
whole-word match (`0`). -/
theorem wholeWordMatch_c6_counterexample :
    specWholeWord "about".toList "/x_about".toList = true ∧
    wholeWordMatch "about".toList "/x_about".toList = false ∧
    priority_score ["about".toList] "/x_about".toList = some 1 := by
  decide

/-! ### Helper lemmas: the score order -/

theorem scoreLE_refl (a : Option Nat) : scoreLE a a = true := by
  cases a <;> simp [scoreLE]

theorem scoreLE_trans (a b c : Option Nat) (h1 : scoreLE a b = true)
    (h2 : scoreLE b c = true) : scoreLE a c = true := by
  cases a <;> cases b <;> cases c <;> simp_all [scoreLE]
  omega

theorem scoreLE_total (a b : Option Nat) : (scoreLE a b || scoreLE b a) = true := by
  cases a <;> cases b <;> simp [scoreLE]
  omega

/-! ### Claim C7 -/

/-- C7: `prioritize_links` scores a link from the lower-cased path of its
URL: the first keyword (in caller order) that whole-word-matches gives score
= its index, which is `< len(keywords)`, and scanning stops there; when no
keyword whole-word-matches, the first keyword contained anywhere gives score
= index + len(keywords), which is `≥ len(keywords)` — so every partial-match
score strictly exceeds every whole-word score; with no match at all the
score is `none` (infinity), which `scoreLE` puts after every finite score so
the link sorts last; and on `["/about", "/network"]` with keywords
`["work", "about"]` the ranking is `["/about", "/network"]`. -/
theorem priority_score_spec :
    (∀ (kws : List (List Char)) (url : List Char) (i : Nat),
      kws.findIdx? (fun kw => wholeWordMatch (lowerStr kw) (lowerStr (urlPath url)))
          = some i →
      priority_score kws url = some i ∧ i < kws.length) ∧
    (∀ (kws : List (List Char)) (url : List Char) (i : Nat),
      kws.findIdx? (fun kw => wholeWordMatch (lowerStr kw) (lowerStr (urlPath url)))
          = none →
      kws.findIdx? (fun kw => containsSub (lowerStr kw) (lowerStr (urlPath url)))
          = some i →
      priority_score kws url = some (i + kws.length) ∧ kws.length ≤ i + kws.length) ∧
    (∀ (kws : List (List Char)) (url : List Char),
      kws.findIdx? (fun kw => wholeWordMatch (lowerStr kw) (lowerStr (urlPath url)))
          = none →
      kws.findIdx? (fun kw => containsSub (lowerStr kw) (lowerStr (urlPath url)))
          = none →
      priority_score kws url = none) ∧
    (∀ s : Nat, scoreLE (some s) none = true ∧ scoreLE none (some s) = false) ∧
    prioritize_links [⟨"/about".toList⟩, ⟨"/network".toList⟩]
        ["work".toList, "about".toList]
      = [⟨"/about".toList⟩, ⟨"/network".toList⟩] := by
  refine ⟨?_, ?_, ?_, ?_, ?_⟩
  · intro kws url i h
    refine ⟨by simp only [priority_score, h], ?_⟩
    rw [List.findIdx?_eq_some_iff_getElem] at h
    obtain ⟨hlt, -⟩ := h
    exact hlt
  · intro kws url i h1 h2
    refine ⟨by simp only [priority_score, h1, h2], by omega⟩
  · intro kws url h1 h2
    simp only [priority_score, h1, h2]
  · intro s
    exact ⟨rfl, rfl⟩
  · exact List.mergeSort_of_sorted (by decide)

-- Witness for C7: with the single keyword "about" and URL "/about", the
-- whole-word scan hits at index 0 and the score is 0.
theorem priority_score_spec_witness :
    priority_score ["about".toList] "/about".toList = some 0 ∧ 0 < 1 :=
  priority_score_spec.1 ["about".toList] "/about".toList 0 (by decide)

/-! ### Claim C8 -/

/-- C8: `prioritize_links` returns a permutation of its input sorted
ascending by score; links of equal score — the no-match infinity score
included — keep their relative input order (the sublist of links of any
fixed score is unchanged); an empty keyword list preserves the input order
exactly; an empty link list yields the empty result. -/
theorem prioritize_links_stable (links : List Link) (kws : List (List Char)) :
    (prioritize_links links kws).Perm links ∧
    (prioritize_links links kws).Pairwise
      (fun a b => scoreLE (priority_score kws a.url) (priority_score kws b.url) = true) ∧
    (∀ s : Option Nat,
      (prioritize_links links kws).filter (fun l => priority_score kws l.url == s)
        = links.filter (fun l => priority_score kws l.url == s)) ∧
    (kws = [] → prioritize_links links kws = links) ∧
    (links = [] → prioritize_links links kws = []) := by
  have htrans : ∀ a b c : Link,
      scoreLE (priority_score kws a.url) (priority_score kws b.url) = true →
      scoreLE (priority_score kws b.url) (priority_score kws c.url) = true →
      scoreLE (priority_score kws a.url) (priority_score kws c.url) = true :=
    fun a b c h1 h2 => scoreLE_trans _ _ _ h1 h2
  have htotal : ∀ a b : Link,
      (scoreLE (priority_score kws a.url) (priority_score kws b.url)
        || scoreLE (priority_score kws b.url) (priority_score kws a.url)) = true :=
    fun a b => scoreLE_total _ _
  refine ⟨List.mergeSort_perm links _, ?_, ?_, ?_, ?_⟩
  · unfold prioritize_links
    exact List.sorted_mergeSort htrans htotal links
  · intro s
    have hfil : (links.filter (fun l => priority_score kws l.url == s)).filter
        (fun l => priority_score kws l.url == s)
        = links.filter (fun l => priority_score kws l.url == s) := by
      rw [List.filter_filter]
      apply List.filter_congr
      intro a _
      rw [Bool.and_self]
    have hsub : List.Sublist (links.filter (fun l => priority_score kws l.url == s))
        (prioritize_links links kws) := by
      unfold prioritize_links
      apply List.sublist_mergeSort htrans htotal
      · apply List.pairwise_of_forall_mem_list
        intro a ha b hb
        rw [List.mem_filter] at ha hb
        have ha2 : priority_score kws a.url = s := by
          have := ha.2; rwa [beq_iff_eq] at this
        have hb2 : priority_score kws b.url = s := by
          have := hb.2; rwa [beq_iff_eq] at this
        show scoreLE (priority_score kws a.url) (priority_score kws b.url) = true
        rw [ha2, hb2]
        exact scoreLE_refl s
      · exact List.filter_sublist links
    have hsub2 : List.Sublist (links.filter (fun l => priority_score kws l.url == s))
        ((prioritize_links links kws).filter (fun l => priority_score kws l.url == s)) := by
      have hs := hsub.filter (fun l => priority_score kws l.url == s)
      rwa [hfil] at hs
    have hlen : ((prioritize_links links kws).filter
          (fun l => priority_score kws l.url == s)).length
        = (links.filter (fun l => priority_score kws l.url == s)).length :=
      ((List.mergeSort_perm links _).filter _).length_eq
    exact (hsub2.eq_of_length hlen.symm).symm
  · intro hk
    subst hk
    apply List.mergeSort_of_sorted
    apply List.pairwise_of_forall_mem_list
    intro a ha b hb
    show scoreLE (priority_score [] a.url) (priority_score [] b.url) = true
    rfl
  · intro hl
    subst hl
    exact List.mergeSort_nil

-- Witness for C8: the empty keyword list preserves the input order exactly.
theorem prioritize_links_stable_witness :
    prioritize_links [⟨"/a".toList⟩, ⟨"/b".toList⟩] [] = [⟨"/a".toList⟩, ⟨"/b".toList⟩] :=
  (prioritize_links_stable [⟨"/a".toList⟩, ⟨"/b".toList⟩] []).2.2.2.1 rfl
